import Mathlib

/-!
Verification of the CryptoNight slow-hash implementation
(`src/cryptonight/c/slow-hash.c`, `src/cryptonight/c/blake256.c`)
against its natural-language specification.

Machine integers are modelled as `Nat` with explicit reduction modulo
`2^32` / `2^64` where the C code relies on unsigned wrap-around; byte
buffers are modelled as `List Nat` (each element a byte) or, for the
2 MiB scratchpad, as a function `Nat → Nat` from byte offset to byte
value.  `SWAP64LE` / `SWAP32LE` are identities on values: every
multi-byte integer view is the little-endian interpretation of the
underlying bytes, which our `le64` / `le32` helpers compute directly.
-/

/-- Little-endian value of a list of bytes (each taken mod 256, matching
the `uint8_t` element type of the C buffers). -/
def leVal : List Nat → Nat
  | [] => 0
  | b :: bs => b % 256 + 256 * leVal bs

/-- Little-endian `uint64_t` view of the first 8 bytes of a buffer
(`SWAP64LE(*(uint64_t *)p)` in the C code). -/
def le64 (l : List Nat) : Nat := leVal (l.take 8)

/-- Little-endian `uint32_t` view of the first 4 bytes of a buffer. -/
def le32 (l : List Nat) : Nat := leVal (l.take 4)

/-- The `n` little-endian bytes of `x`. -/
def leBytes : Nat → Nat → List Nat
  | 0, _ => []
  | n + 1, x => x % 256 :: leBytes n (x / 256)

/-- Byte-wise XOR of two buffers (`xor_blocks` / `xor64` in the C code,
depending on the length of the operands). -/
def zipXor (a b : List Nat) : List Nat := List.zipWith (fun x y => x ^^^ y) a b

/-- The scratchpad (and any byte-addressed memory): byte offset ↦ byte value. -/
abbrev Mem := Nat → Nat

/-- `memcpy(L + j, bs, bs.length)`: write the byte list `bs` at offset `j`.
Stored values are reduced mod 256 (the `uint8_t` store). -/
def writeBytes (L : Mem) (j : Nat) (bs : List Nat) : Mem :=
  fun addr => if j ≤ addr ∧ addr < j + bs.length then bs.getD (addr - j) 0 % 256 else L addr

/-- Read `n` bytes at offset `j`. -/
def readBytes (L : Mem) (j n : Nat) : List Nat :=
  (List.range n).map (fun i => L (j + i))

/-- Little-endian `uint64_t` load from memory at byte offset `j`. -/
def read64 (L : Mem) (j : Nat) : Nat := le64 (readBytes L j 8)

/-- Little-endian `uint64_t` store to memory at byte offset `j`. -/
def write64 (L : Mem) (j : Nat) (x : Nat) : Mem := writeBytes L j (leBytes 8 x)

/-- Shallow embedding of `variant2_portable_shuffle_add` from
`slow-hash.c` (lines 90–133).  `out`, `a` are 16-byte buffers, `b` is a
32-byte buffer, `long_state` the scratchpad, `offset` the current
scratchpad offset.  Returns the updated `out` and scratchpad.  Mirrors
the source statement by statement: the three chunk pre-images are read
first, then the three 16-byte stores are performed (chunk1, chunk3,
chunk2 in source order), and for `variant ≥ 4` the local copy
`chunk1_old` is folded with `chunk2_old` before being XORed into the
out-copy, exactly as in the C code. -/
def variant2_portable_shuffle_add (out a b : List Nat) (long_state : Mem)
    (offset : Nat) (variant : Nat) : List Nat × Mem :=
  if 2 ≤ variant then
    let chunk1_old : Nat × Nat :=
      (read64 long_state (offset ^^^ 0x10), read64 long_state ((offset ^^^ 0x10) + 8))
    let chunk2_old : Nat × Nat :=
      (read64 long_state (offset ^^^ 0x20), read64 long_state ((offset ^^^ 0x20) + 8))
    let chunk3_old : Nat × Nat :=
      (read64 long_state (offset ^^^ 0x30), read64 long_state ((offset ^^^ 0x30) + 8))
    let b1 : Nat × Nat := (le64 (b.drop 16), le64 (b.drop 24))
    let L := write64 long_state (offset ^^^ 0x10) ((chunk3_old.1 + b1.1) % 2 ^ 64)
    let L := write64 L ((offset ^^^ 0x10) + 8) ((chunk3_old.2 + b1.2) % 2 ^ 64)
    let a0 : Nat × Nat := (le64 a, le64 (a.drop 8))
    let L := write64 L (offset ^^^ 0x30) ((chunk2_old.1 + a0.1) % 2 ^ 64)
    let L := write64 L ((offset ^^^ 0x30) + 8) ((chunk2_old.2 + a0.2) % 2 ^ 64)
    let b0 : Nat × Nat := (le64 b, le64 (b.drop 8))
    let L := write64 L (offset ^^^ 0x20) ((chunk1_old.1 + b0.1) % 2 ^ 64)
    let L := write64 L ((offset ^^^ 0x20) + 8) ((chunk1_old.2 + b0.2) % 2 ^ 64)
    if 4 ≤ variant then
      let out_copy : Nat × Nat := (le64 out, le64 (out.drop 8))
      let c1x : Nat × Nat := (chunk1_old.1 ^^^ chunk2_old.1, chunk1_old.2 ^^^ chunk2_old.2)
      let oc : Nat × Nat := (out_copy.1 ^^^ chunk3_old.1, out_copy.2 ^^^ chunk3_old.2)
      let oc : Nat × Nat := (oc.1 ^^^ c1x.1, oc.2 ^^^ c1x.2)
      (leBytes 8 oc.1 ++ leBytes 8 oc.2, L)
    else
      (out, L)
  else
    (out, long_state)

/-- Specification-side description of the variant-2 shuffle-add
(spec §4.4, claim C2), written from the spec's words: the three 16-byte
chunks at offsets `j XOR 0x10`, `j XOR 0x20`, `j XOR 0x30` are all read
(captured) before any write; then `chunk1 ← chunk3_old + b[16..32]`,
`chunk3 ← chunk2_old + a`, `chunk2 ← chunk1_old + b[0..16]`, each an
independent wrapping u64 add under the little-endian two-u64 view; and
for `variant ≥ 4` additionally
`out ← out XOR chunk1_old XOR chunk2_old XOR chunk3_old`. -/
def shuffle_add_spec (out a b : List Nat) (L : Mem) (j variant : Nat) : List Nat × Mem :=
  if 2 ≤ variant then
    let chunk1 : Nat × Nat := (read64 L (j ^^^ 0x10), read64 L ((j ^^^ 0x10) + 8))
    let chunk2 : Nat × Nat := (read64 L (j ^^^ 0x20), read64 L ((j ^^^ 0x20) + 8))
    let chunk3 : Nat × Nat := (read64 L (j ^^^ 0x30), read64 L ((j ^^^ 0x30) + 8))
    let L := write64 L (j ^^^ 0x10) ((chunk3.1 + le64 (b.drop 16)) % 2 ^ 64)
    let L := write64 L ((j ^^^ 0x10) + 8) ((chunk3.2 + le64 (b.drop 24)) % 2 ^ 64)
    let L := write64 L (j ^^^ 0x30) ((chunk2.1 + le64 a) % 2 ^ 64)
    let L := write64 L ((j ^^^ 0x30) + 8) ((chunk2.2 + le64 (a.drop 8)) % 2 ^ 64)
    let L := write64 L (j ^^^ 0x20) ((chunk1.1 + le64 b) % 2 ^ 64)
    let L := write64 L ((j ^^^ 0x20) + 8) ((chunk1.2 + le64 (b.drop 8)) % 2 ^ 64)
    let out :=
      if 4 ≤ variant then
        leBytes 8 (((le64 out ^^^ chunk1.1) ^^^ chunk2.1) ^^^ chunk3.1) ++
          leBytes 8 (((le64 (out.drop 8) ^^^ chunk1.2) ^^^ chunk2.2) ^^^ chunk3.2)
      else out
    (out, L)
  else (out, L)

theorem xor_rotate (o c1 c2 c3 : Nat) :
    (o ^^^ c3) ^^^ (c1 ^^^ c2) = ((o ^^^ c1) ^^^ c2) ^^^ c3 := by
  rw [Nat.xor_assoc, Nat.xor_assoc, Nat.xor_assoc, Nat.xor_comm c3, Nat.xor_assoc]

/-- C2: for every scratchpad, registers `a` (16 B) and `b` (32 B),
16-byte-aligned offset `j` and `variant ≥ 2`,
`variant2_portable_shuffle_add` captures the three chunk pre-images
before any write, performs the three rotate-add stores from the
captured values, and for `variant ≥ 4` XORs all three pre-images into
`out` — i.e. it coincides with the spec-side description. -/
theorem shuffle_add_matches_spec (out a b : List Nat) (L : Mem) (j variant : Nat)
    (hv : 2 ≤ variant) (_hj : 16 ∣ j) :
    variant2_portable_shuffle_add out a b L j variant = shuffle_add_spec out a b L j variant := by
  by_cases h4 : 4 ≤ variant <;>
    simp [variant2_portable_shuffle_add, shuffle_add_spec, hv, h4, xor_rotate]

/-- Witness for C2 at a concrete input. -/
theorem shuffle_add_matches_spec_witness :
    (2 ≤ 2 ∧ (16:Nat) ∣ 32) ∧
      variant2_portable_shuffle_add (List.replicate 16 1) (List.replicate 16 2)
          (List.replicate 32 3) (fun _ => 0) 32 2 =
        shuffle_add_spec (List.replicate 16 1) (List.replicate 16 2)
          (List.replicate 32 3) (fun _ => 0) 32 2 :=
  ⟨by decide, shuffle_add_matches_spec _ _ _ _ 32 2 (by decide) (by decide)⟩

/-- The divisor of the variant-2/3 integer-math step, exactly as computed
in `variant2_integer_math` (slow-hash.c lines 169–170): the `uint64_t`
value `SWAP64LE(c2[0..8])` plus the `uint32_t` truncation of
`sqrt_result << 1`, ORed with `0x80000001` in 64-bit, then truncated to
`uint32_t` by the assignment to `divisor`. -/
def v2_divisor (sqrt_result c2_0 : Nat) : Nat :=
  (((c2_0 + (sqrt_result <<< 1) % 2 ^ 32) % 2 ^ 64) ||| 0x80000001) % 2 ^ 32

/-- The FP-assisted square root of `variant2_integer_math` followed by the
mandatory two-way fix-up (slow-hash.c lines 174–178).  The
floating-point estimate `(uint64_t)(sqrt(in + 2^64) * 2.0 - 2^33)` is
not expressible in this embedding and enters as the abstract function
`fp_sqrt` (its result reduced to `uint64_t` range); the integer fix-up
is translated literally, with all `uint64_t` arithmetic wrapping. -/
def v2_sqrt_fixup (fp_sqrt : Nat → Nat) (sqrt_input : Nat) : Nat :=
  let s := fp_sqrt sqrt_input % 2 ^ 64
  let sr_div2 := s >>> 1
  let lsb := s &&& 1
  let r2 := (sr_div2 * (sr_div2 + lsb) + (s <<< 32) % 2 ^ 64) % 2 ^ 64
  (s + (if sqrt_input < (r2 + lsb) % 2 ^ 64 then 2 ^ 64 - 1 else 0) +
      (if (r2 + 2 ^ 32) % 2 ^ 64 < (sqrt_input + 2 ^ 64 - sr_div2) % 2 ^ 64 then 1 else 0)) % 2 ^ 64

/-- Shallow embedding of `variant2_integer_math` from `slow-hash.c`
(lines 148–190).  The first parameter (named `c1` in the C function) is
the 16-byte block whose low u64 is XORed; the second (`c2`) is only
read.  Returns the updated block, the new `division_result` and the new
`sqrt_result`.  A no-op unless `variant ∈ {2, 3}`. -/
def variant2_integer_math (c1 c2 : List Nat) (division_result sqrt_result : Nat)
    (fp_sqrt : Nat → Nat) (variant : Nat) : List Nat × Nat × Nat :=
  if variant = 2 ∨ variant = 3 then
    let tmpx := division_result ^^^ (sqrt_result <<< 32) % 2 ^ 64
    let c1 := leBytes 8 (le64 c1 ^^^ tmpx) ++ c1.drop 8
    let dividend := le64 (c2.drop 8)
    let divisor := v2_divisor sqrt_result (le64 c2)
    let division_result := ((dividend / divisor) % 2 ^ 32 + ((dividend % divisor) <<< 32) % 2 ^ 64) % 2 ^ 64
    let sqrt_input := (le64 c2 + division_result) % 2 ^ 64
    let sqrt_result := v2_sqrt_fixup fp_sqrt sqrt_input
    (c1, division_result, sqrt_result)
  else (c1, division_result, sqrt_result)

/-- Specification-side description of the variant-2/3 integer-math step
(spec §4.5, claim C3): `c1[0..8] ← c1[0..8] XOR (division_result XOR
(sqrt_result << 32))`; `dividend ← le_u64(c2[8..16])`; `divisor ←
(u32)(le_u64(c2[0..8]) + (sqrt_result << 1)) OR 0x80000001`;
`division_result ← (dividend / divisor as u32) | ((dividend mod divisor
as u64) << 32)`; `sqrt_input ← le_u64(c2[0..8]) + division_result`
(wrapping); `sqrt_result` recomputed from `sqrt_input`. -/
def integer_math_spec (c1 c2 : List Nat) (division_result sqrt_result : Nat)
    (fp_sqrt : Nat → Nat) (variant : Nat) : List Nat × Nat × Nat :=
  if variant = 2 ∨ variant = 3 then
    let tmpx := division_result ^^^ (sqrt_result <<< 32) % 2 ^ 64
    let c1 := leBytes 8 (le64 c1 ^^^ tmpx) ++ c1.drop 8
    let dividend := le64 (c2.drop 8)
    let divisor := ((le64 c2 + sqrt_result <<< 1) % 2 ^ 32) ||| 0x80000001
    let division_result := (dividend / divisor) % 2 ^ 32 ||| (dividend % divisor) <<< 32
    let sqrt_input := (le64 c2 + division_result) % 2 ^ 64
    let sqrt_result := v2_sqrt_fixup fp_sqrt sqrt_input
    (c1, division_result, sqrt_result)
  else (c1, division_result, sqrt_result)

/-- If `a < 2^n` then adding `b <<< n` is the same as ORing it in: the
two summands occupy disjoint bit ranges. -/
theorem add_shiftLeft_eq_or (n a b : Nat) (h : a < 2 ^ n) :
    a + b <<< n = a ||| b <<< n := by
  apply Nat.eq_of_testBit_eq
  intro i
  rw [Nat.testBit_or, Nat.shiftLeft_eq]
  have hpi : (0:Nat) < 2 ^ i := Nat.pos_pow_of_pos i (by norm_num)
  have hpn : (0:Nat) < 2 ^ n := Nat.pos_pow_of_pos n (by norm_num)
  rcases Nat.lt_or_ge i n with hi | hi
  · have h2n : (2:Nat) ^ n = 2 ^ (n - i) * 2 ^ i := by
      rw [← Nat.pow_add]
      congr 1
      omega
    have heven : b * 2 ^ (n - i) % 2 = 0 := by
      have hh : (2:Nat) ^ (n - i) = 2 ^ (n - i - 1) * 2 := by
        rw [← Nat.pow_succ]
        congr 1
        omega
      rw [hh, ← Nat.mul_assoc]
      simp [Nat.mul_mod_left]
    have e1 : (a + b * 2 ^ n) / 2 ^ i % 2 = a / 2 ^ i % 2 := by
      rw [h2n, ← Nat.mul_assoc, Nat.add_mul_div_right _ _ hpi]
      omega
    have e2 : (b * 2 ^ n) / 2 ^ i % 2 = 0 := by
      rw [h2n, ← Nat.mul_assoc, Nat.mul_div_cancel _ hpi]
      exact heven
    rw [Nat.testBit_to_div_mod, Nat.testBit_to_div_mod, Nat.testBit_to_div_mod, e1, e2]
    simp
  · have h2i : (2:Nat) ^ i = 2 ^ n * 2 ^ (i - n) := by
      rw [← Nat.pow_add]
      congr 1
      omega
    have ediv : (a + b * 2 ^ n) / 2 ^ n = b := by
      rw [Nat.mul_comm b, Nat.add_mul_div_left _ _ hpn, Nat.div_eq_of_lt h, Nat.zero_add]
    have e1 : (a + b * 2 ^ n) / 2 ^ i = b / 2 ^ (i - n) := by
      rw [h2i, ← Nat.div_div_eq_div_mul, ediv]
    have e2 : (b * 2 ^ n) / 2 ^ i = b / 2 ^ (i - n) := by
      rw [h2i, ← Nat.div_div_eq_div_mul, Nat.mul_div_cancel _ hpn]
    have ha : a.testBit i = false :=
      Nat.testBit_lt_two_pow (Nat.lt_of_lt_of_le h (Nat.pow_le_pow_right (by norm_num) hi))
    rw [ha, Bool.false_or, Nat.testBit_to_div_mod, Nat.testBit_to_div_mod, e1, e2]

/-- Reduction mod `2^k` distributes over an OR whose right operand is
below `2^k`. -/
theorem or_mod_two_pow (x m k : Nat) (hm : m < 2 ^ k) :
    (x ||| m) % 2 ^ k = (x % 2 ^ k) ||| m := by
  apply Nat.eq_of_testBit_eq
  intro i
  rw [Nat.testBit_mod_two_pow, Nat.testBit_or, Nat.testBit_or, Nat.testBit_mod_two_pow]
  rcases Nat.lt_or_ge i k with hi | hi
  · simp [hi]
  · have h1 : ¬ i < k := by omega
    have hmt : m.testBit i = false :=
      Nat.testBit_lt_two_pow (lt_of_lt_of_le hm (Nat.pow_le_pow_right (by norm_num) hi))
    simp [h1, hmt]

/-- ORing a value in can only grow a number. -/
theorem le_or (y m : Nat) : m ≤ y ||| m := by
  have h : (y ||| m) &&& m = m := by
    apply Nat.eq_of_testBit_eq
    intro i
    rw [Nat.testBit_and, Nat.testBit_or]
    cases hy : y.testBit i <;> cases hm : m.testBit i <;> simp
  calc m = (y ||| m) &&& m := h.symm
    _ ≤ y ||| m := Nat.and_le_left

/-- The divisor computed by the code equals the spec's formula
`(u32)(le_u64(c2[0..8]) + (sqrt_result << 1)) OR 0x80000001`. -/
theorem v2_divisor_eq (sr c2_0 : Nat) :
    v2_divisor sr c2_0 = ((c2_0 + sr <<< 1) % 2 ^ 32) ||| 0x80000001 := by
  unfold v2_divisor
  rw [or_mod_two_pow _ _ _ (by norm_num)]
  congr 1
  rw [Nat.mod_mod_of_dvd _ (by norm_num : (2:Nat) ^ 32 ∣ 2 ^ 64), Nat.add_mod_mod]

/-- C7: the divisor of the variant-2/3 integer-math step is odd, at least
`0x80000001` (bit 0 and bit 31 forced by the OR), and in particular
nonzero: the division and modulo in `variant2_integer_math` are defined
on every input and the division-by-zero case is unreachable. -/
theorem v2_divisor_odd_large_nonzero (sr c2_0 : Nat) :
    v2_divisor sr c2_0 % 2 = 1 ∧ 0x80000001 ≤ v2_divisor sr c2_0 ∧ v2_divisor sr c2_0 ≠ 0 := by
  have hge : 0x80000001 ≤ v2_divisor sr c2_0 := by
    rw [v2_divisor_eq]
    exact le_or _ _
  refine ⟨?_, hge, by omega⟩
  have h0 : (v2_divisor sr c2_0).testBit 0 = true := by
    rw [v2_divisor_eq, Nat.testBit_or]
    have hm : (0x80000001 : Nat).testBit 0 = true := by decide
    simp [hm]
  rw [Nat.testBit_to_div_mod] at h0
  simpa using h0

/-- The sum form of the new `division_result` in the code equals the OR
form of the spec: quotient (truncated to u32) and shifted remainder
occupy disjoint bit ranges. -/
theorem division_result_or (d v : Nat) (hv32 : v < 2 ^ 32) (hv0 : 0 < v) :
    ((d / v) % 2 ^ 32 + ((d % v) <<< 32) % 2 ^ 64) % 2 ^ 64 = (d / v) % 2 ^ 32 ||| (d % v) <<< 32 := by
  have h32 : (2:Nat) ^ 32 = 4294967296 := by norm_num
  have h64 : (2:Nat) ^ 64 = 18446744073709551616 := by norm_num
  have hrem : d % v < 2 ^ 32 := lt_of_lt_of_le (Nat.mod_lt _ hv0) (le_of_lt hv32)
  have hq : (d / v) % 2 ^ 32 < 2 ^ 32 := Nat.mod_lt _ (by norm_num)
  have hsh : (d % v) <<< 32 < 2 ^ 64 := by
    rw [Nat.shiftLeft_eq]
    rw [h32] at hrem ⊢
    rw [h64]
    omega
  have hsum : (d / v) % 2 ^ 32 + (d % v) <<< 32 < 2 ^ 64 := by
    rw [Nat.shiftLeft_eq]
    rw [h32] at hrem hq ⊢
    rw [h64]
    omega
  rw [Nat.mod_eq_of_lt hsh, Nat.mod_eq_of_lt hsum, add_shiftLeft_eq_or 32 _ _ hq]

/-- C3: for `variant ∈ {2, 3}`, `variant2_integer_math` performs exactly
the update described by the spec: the low u64 of `c1` is XORed with
`division_result XOR (sqrt_result << 32)`; the new `division_result` is
`(dividend / divisor as u32) | ((dividend mod divisor) << 32)` with
`dividend = le_u64(c2[8..16])` and the spec's divisor; and `sqrt_result`
is recomputed from `sqrt_input = le_u64(c2[0..8]) + division_result`
(wrapping mod `2^64`). -/
theorem integer_math_matches_spec (c1 c2 : List Nat) (dr sr : Nat) (fp : Nat → Nat)
    (variant : Nat) (hv : variant = 2 ∨ variant = 3) :
    variant2_integer_math c1 c2 dr sr fp variant = integer_math_spec c1 c2 dr sr fp variant := by
  have hv32 : v2_divisor sr (le64 c2) < 2 ^ 32 := Nat.mod_lt _ (by norm_num)
  have hv0 : 0 < v2_divisor sr (le64 c2) := by
    have := (v2_divisor_odd_large_nonzero sr (le64 c2)).2.2
    omega
  simp only [variant2_integer_math, integer_math_spec, if_pos hv, ← v2_divisor_eq sr (le64 c2),
    division_result_or _ _ hv32 hv0]

/-- Witness for C3 at a concrete input. -/
theorem integer_math_matches_spec_witness :
    ((2:Nat) = 2 ∨ (2:Nat) = 3) ∧
      variant2_integer_math (List.replicate 16 5) (List.replicate 16 7) 11 13 (fun x => x) 2 =
        integer_math_spec (List.replicate 16 5) (List.replicate 16 7) 11 13 (fun x => x) 2 :=
  ⟨Or.inl rfl, integer_math_matches_spec _ _ 11 13 _ 2 (Or.inl rfl)⟩

/-- Shallow embedding of `e2i` from `slow-hash.c` (lines 255–257):
`(SWAP64LE(*(uint64_t *)a) / AES_BLOCK_SIZE) & (count - 1)`, with
`AES_BLOCK_SIZE = 16`.  The main loop calls it with
`count = MEMORY / AES_BLOCK_SIZE = 131072` and multiplies the result by
`AES_BLOCK_SIZE` to obtain the byte offset `j`. -/
def e2i (a : List Nat) (count : Nat) : Nat :=
  (le64 a / 16) &&& (count - 1)

theorem xor_shiftLeft_distrib (x y n : Nat) :
    (x <<< n) ^^^ (y <<< n) = (x ^^^ y) <<< n := by
  apply Nat.eq_of_testBit_eq
  intro i
  rw [Nat.testBit_xor, Nat.testBit_shiftLeft, Nat.testBit_shiftLeft, Nat.testBit_shiftLeft,
    Nat.testBit_xor]
  by_cases h : n ≤ i <;> simp [h]

/-- The mask in `e2i` is a mod: `x &&& 131071 = x % 131072`. -/
theorem e2i_eq_mod (a : List Nat) : e2i a 131072 = (le64 a / 16) % 131072 := by
  unfold e2i
  have h1 : (131072 - 1 : Nat) = 2 ^ 17 - 1 := by norm_num
  have h2 : (131072 : Nat) = 2 ^ 17 := by norm_num
  rw [h1, Nat.and_pow_two_sub_one_eq_mod, h2]

/-- C8: every main-loop scratchpad offset `j = e2i(reg, 131072) * 16`
equals `((le_u64(reg[0..8]) / 16) mod 131072) * 16`, is 16-byte aligned
and at most `2^21 - 16`; and each of the four 16-byte accesses of the
loop body — at `j`, `j XOR 0x10`, `j XOR 0x20`, `j XOR 0x30` — is
16-byte aligned and lies entirely inside the 2 MiB scratchpad. -/
theorem main_loop_offset_in_bounds (a : List Nat) :
    e2i a 131072 * 16 = (le64 a / 16) % 131072 * 16 ∧
    (e2i a 131072 * 16) % 16 = 0 ∧
    e2i a 131072 * 16 ≤ 2 ^ 21 - 16 ∧
    ((e2i a 131072 * 16) ^^^ 0x10) % 16 = 0 ∧ ((e2i a 131072 * 16) ^^^ 0x10) + 16 ≤ 2 ^ 21 ∧
    ((e2i a 131072 * 16) ^^^ 0x20) % 16 = 0 ∧ ((e2i a 131072 * 16) ^^^ 0x20) + 16 ≤ 2 ^ 21 ∧
    ((e2i a 131072 * 16) ^^^ 0x30) % 16 = 0 ∧ ((e2i a 131072 * 16) ^^^ 0x30) + 16 ≤ 2 ^ 21 := by
  have hk : e2i a 131072 < 131072 := by
    rw [e2i_eq_mod]
    exact Nat.mod_lt _ (by norm_num)
  have hxor : ∀ m : Nat, (e2i a 131072 * 16) ^^^ (m * 16) = (e2i a 131072 ^^^ m) * 16 := by
    intro m
    have h16 : ∀ x : Nat, x * 16 = x <<< 4 := by
      intro x
      rw [Nat.shiftLeft_eq]
    rw [h16, h16, h16, xor_shiftLeft_distrib]
  have hxb : ∀ m : Nat, m < 131072 → ((e2i a 131072 * 16) ^^^ (m * 16)) % 16 = 0 ∧
      ((e2i a 131072 * 16) ^^^ (m * 16)) + 16 ≤ 2 ^ 21 := by
    intro m hm
    rw [hxor]
    constructor
    · exact Nat.mul_mod_left _ 16
    · have hx : e2i a 131072 ^^^ m < 131072 := by
        have h2 : (131072 : Nat) = 2 ^ 17 := by norm_num
        rw [h2] at hk hm ⊢
        exact Nat.xor_lt_two_pow hk hm
      have : (2:Nat) ^ 21 = 131072 * 16 := by norm_num
      rw [this]
      omega
  have h10 := hxb 1 (by norm_num)
  have h20 := hxb 2 (by norm_num)
  have h30 := hxb 3 (by norm_num)
  norm_num at h10 h20 h30
  refine ⟨by rw [e2i_eq_mod], Nat.mul_mod_left _ 16, by omega, h10.1, h10.2, h20.1, h20.2,
    h30.1, h30.2⟩

/-- Shallow embedding of `VARIANT4_RANDOM_MATH` from `slow-hash.c`
(lines 219–249).  The random-math evaluator `v4_random_math` (defined in
`variant4_random_math.h`, outside this repository slice) enters as the
abstract function `eval`; its output models the C `uint32_t r[9]` array,
so each entry is reduced mod `2^32`.  Mirrors the source order: the low
u64 of `c2` is XORed using the incoming `r[0..3]`; then `r[4..8]` are
refreshed by little-endian u32 loads from `a1`, `b[0..16]`, `b[16..32]`;
then the program is evaluated; then the two halves of `a1` are XORed
with the packings of the evaluated `(r[2], r[3])` and `(r[0], r[1])`. -/
def VARIANT4_RANDOM_MATH (eval : List Nat → List Nat → List Nat)
    (a1 c2 r b_1st16 b_2nd16 : List Nat) (variant : Nat) (code : List Nat) :
    List Nat × List Nat × List Nat :=
  if 4 ≤ variant then
    let t0 := le64 c2
    let t0 := t0 ^^^ (((r.getD 0 0 + r.getD 1 0) % 2 ^ 32) |||
      ((r.getD 2 0 + r.getD 3 0) % 2 ^ 32) <<< 32)
    let c2 := leBytes 8 t0 ++ c2.drop 8
    let r := [r.getD 0 0, r.getD 1 0, r.getD 2 0, r.getD 3 0,
      le32 a1, le32 (a1.drop 8), le32 b_1st16, le32 b_2nd16, le32 (b_2nd16.drop 8)]
    let r := (eval code r).map (fun x => x % 2 ^ 32)
    let t0 := le64 a1 ^^^ (r.getD 2 0 ||| r.getD 3 0 <<< 32)
    let t1 := le64 (a1.drop 8) ^^^ (r.getD 0 0 ||| r.getD 1 0 <<< 32)
    (leBytes 8 t0 ++ leBytes 8 t1, c2, r)
  else (a1, c2, r)

/-- Specification-side description of the per-iteration variant-4
random-math call (spec §4.6, claim C6), written from the spec's words:
first `c2[0..8] ← c2[0..8] XOR ((r[0]+r[1]) | ((u64)(r[2]+r[3]) << 32))`
using the incoming register values; then `r[4..9]` are refreshed from
the current `a1`, `b[0..16]`, `b[16..32]` by little-endian u32 loads;
then the program is evaluated; then `a1[0..8]` is XORed with the
little-endian packing of the evaluated `(r[2], r[3])` and `a1[8..16]`
with that of `(r[0], r[1])`. -/
def variant4_random_math_spec (eval : List Nat → List Nat → List Nat)
    (a1 c2 r b_1st16 b_2nd16 : List Nat) (variant : Nat) (code : List Nat) :
    List Nat × List Nat × List Nat :=
  if 4 ≤ variant then
    let c2 := leBytes 8 (le64 c2 ^^^ (((r.getD 0 0 + r.getD 1 0) % 2 ^ 32) |||
      ((r.getD 2 0 + r.getD 3 0) % 2 ^ 32) <<< 32)) ++ c2.drop 8
    let refreshed := [r.getD 0 0, r.getD 1 0, r.getD 2 0, r.getD 3 0,
      le32 a1, le32 (a1.drop 8), le32 b_1st16, le32 b_2nd16, le32 (b_2nd16.drop 8)]
    let evaluated := (eval code refreshed).map (fun x => x % 2 ^ 32)
    let a1new := leBytes 8 (le64 a1 ^^^ (evaluated.getD 2 0 ||| evaluated.getD 3 0 <<< 32)) ++
      leBytes 8 (le64 (a1.drop 8) ^^^ (evaluated.getD 0 0 ||| evaluated.getD 1 0 <<< 32))
    (a1new, c2, evaluated)
  else (a1, c2, r)

/-- C6: for `variant ≥ 4` the per-iteration random-math call performs
exactly, and in the stated order, the `c2` XOR (with the incoming
registers), the `r[4..9]` refresh, the program evaluation, and the two
`a1` XORs (with the evaluated registers). -/
theorem variant4_random_math_matches_spec (eval : List Nat → List Nat → List Nat)
    (a1 c2 r b1 b2 : List Nat) (variant : Nat) (code : List Nat) (hv : 4 ≤ variant) :
    VARIANT4_RANDOM_MATH eval a1 c2 r b1 b2 variant code =
      variant4_random_math_spec eval a1 c2 r b1 b2 variant code := by
  simp [VARIANT4_RANDOM_MATH, variant4_random_math_spec, hv]

/-- Witness for C6 at a concrete input. -/
theorem variant4_random_math_matches_spec_witness :
    4 ≤ 4 ∧
      VARIANT4_RANDOM_MATH (fun _ r => r) (List.replicate 16 1) (List.replicate 16 2)
          (List.replicate 9 3) (List.replicate 16 4) (List.replicate 16 5) 4 [] =
        variant4_random_math_spec (fun _ r => r) (List.replicate 16 1) (List.replicate 16 2)
          (List.replicate 9 3) (List.replicate 16 4) (List.replicate 16 5) 4 [] :=
  ⟨by decide, variant4_random_math_matches_spec _ _ _ _ _ _ 4 [] (by decide)⟩

/-- Shallow embedding of `mul` from `slow-hash.c` (lines 259–268): the
full 64×64→128 product of the low u64s of `a` and `b`, stored as
`hi || lo`, both little-endian.  Modelled from the spec: `mul128`
(`int-util.h`, not part of this repository slice) is the full unsigned
128-bit product returning the high word and the low word (spec §4.2). -/
def mul (a b : List Nat) : List Nat :=
  let a0 := le64 a
  let b0 := le64 b
  let hi := a0 * b0 / 2 ^ 64
  let lo := a0 * b0 % 2 ^ 64
  leBytes 8 hi ++ leBytes 8 lo

/-- Shallow embedding of `sum_half_blocks` from `slow-hash.c`
(lines 270–281): two independent wrapping u64 adds under the
little-endian two-u64 view. -/
def sum_half_blocks (a b : List Nat) : List Nat :=
  leBytes 8 ((le64 a + le64 b) % 2 ^ 64) ++
    leBytes 8 ((le64 (a.drop 8) + le64 (b.drop 8)) % 2 ^ 64)

/-- Shallow embedding of the `VARIANT1_1` macro from `slow-hash.c`
(lines 41–48), applied to the scratchpad at offset `j`: a nibble tweak
of byte `j + 11` driven by the table `0x75310`. -/
def variant1_1 (L : Mem) (j : Nat) (variant : Nat) : Mem :=
  if variant = 1 then
    let tmp := L (j + 11)
    let index := (((tmp >>> 3) &&& 6) ||| (tmp &&& 1)) <<< 1
    writeBytes L (j + 11) [tmp ^^^ ((0x75310 >>> index) &&& 0x30)]
  else L

/-- The external collaborators of `cn_slow_hash` (declared in headers
that are not part of this repository slice): Keccak, the OAES key
schedule, single and pseudo AES rounds, the final Keccak permutation,
the four finisher hashes, the variant-4 program generator and evaluator,
and the floating-point square-root estimate of the variant-2 integer
math.  All other code of `slow-hash.c` is embedded concretely. -/
structure Prims where
  keccak1600 : List Nat → List Nat
  oaes_expand : List Nat → List Nat
  aesb_single_round : List Nat → List Nat → List Nat
  aesb_pseudo_round : List Nat → List Nat → List Nat
  hash_permutation : List Nat → List Nat
  hash_extra_blake : List Nat → List Nat
  hash_extra_groestl : List Nat → List Nat
  hash_extra_jh : List Nat → List Nat
  hash_extra_skein : List Nat → List Nat
  v4_random_math_init : Nat → List Nat
  v4_random_math : List Nat → List Nat → List Nat
  fp_sqrt : Nat → Nat

/-- Replace the 16-byte block at byte position `j` of a byte list. -/
def setSlice (t : List Nat) (j : Nat) (blk : List Nat) : List Nat :=
  t.take j ++ blk ++ t.drop (j + blk.length)

/-- One group of the scratchpad-expansion loop (slow-hash.c lines
433–438): each of the 8 AES blocks of `text` is put through
`aesb_pseudo_round` in place. -/
def pseudo_round_8 (P : Prims) (expKey : List Nat) (text : List Nat) : List Nat :=
  (List.range 8).foldl
    (fun t j => setSlice t (16 * j) (P.aesb_pseudo_round ((t.drop (16 * j)).take 16) expKey)) text

/-- One group of the absorption loop (slow-hash.c lines 501–506): each
of the 8 AES blocks of `text` is XORed with the corresponding
scratchpad block and put through `aesb_pseudo_round` in place. -/
def absorb_round_8 (P : Prims) (expKey : List Nat) (L : Mem) (i : Nat) (text : List Nat) : List Nat :=
  (List.range 8).foldl
    (fun t j =>
      let blk := zipXor ((t.drop (16 * j)).take 16) (readBytes L (128 * i + 16 * j) 16)
      setSlice t (16 * j) (P.aesb_pseudo_round blk expKey)) text

/-- The mutable state carried between iterations of the main loop of
`cn_slow_hash`.  The locals `a1`, `c1`, `c2`, `d` are fully rewritten
before being read in every iteration, so they are not part of the
carried state. -/
structure LoopState where
  L : Mem
  a : List Nat
  b : List Nat
  division_result : Nat
  sqrt_result : Nat
  r : List Nat

/-- One iteration of the main loop of `cn_slow_hash` (slow-hash.c lines
447–494), translated statement by statement. -/
def cn_loop_step (P : Prims) (variant : Nat) (code : List Nat) (tweak1_2 : List Nat)
    (s : LoopState) : LoopState :=
  let j := e2i s.a 131072 * 16
  let c1 := readBytes s.L j 16
  let c1 := P.aesb_single_round c1 s.a
  let sa := variant2_portable_shuffle_add c1 s.a s.b s.L j variant
  let c1 := sa.1
  let L := sa.2
  let L := writeBytes L j c1
  let L := writeBytes L j (zipXor (readBytes L j 16) (s.b.take 16))
  let L := variant1_1 L j variant
  let j := e2i c1 131072 * 16
  let c2 := readBytes L j 16
  let a1 := s.a
  let im := variant2_integer_math c2 c1 s.division_result s.sqrt_result P.fp_sqrt variant
  let c2 := im.1
  let v4 := VARIANT4_RANDOM_MATH P.v4_random_math a1 c2 s.r (s.b.take 16) (s.b.drop 16) variant code
  let a1 := v4.1
  let c2 := v4.2.1
  let d := mul c1 c2
  let Ld := if variant = 2 ∨ variant = 3 then
      let L := writeBytes L (j ^^^ 0x10) (zipXor (readBytes L (j ^^^ 0x10) 16) d)
      (L, zipXor d (readBytes L (j ^^^ 0x20) 16))
    else (L, d)
  let sa2 := variant2_portable_shuffle_add c1 s.a s.b Ld.1 j variant
  let c1 := sa2.1
  let L := sa2.2
  let a1 := sum_half_blocks a1 Ld.2
  let swapped : List Nat × List Nat := (c2, a1)
  let a1 := zipXor swapped.1 swapped.2
  let c2 := swapped.2
  let c2 := if variant = 1 then c2.take 8 ++ zipXor (c2.drop 8) tweak1_2 else c2
  let L := writeBytes L j c2
  let b := if 2 ≤ variant then c1 ++ s.b.take 16 else c1 ++ s.b.drop 16
  { L := L, a := a1, b := b, division_result := im.2.1, sqrt_result := im.2.2, r := v4.2.2 }

/-- Selection among the `extra_hashes` function-pointer array of
`slow-hash.c` (lines 251–253): 0 → BLAKE-256, 1 → Groestl-256,
2 → JH-256, 3 → Skein-256. -/
def extra_hashes_sel (P : Prims) (i : Nat) : List Nat → List Nat :=
  [P.hash_extra_blake, P.hash_extra_groestl, P.hash_extra_jh, P.hash_extra_skein].getD i
    P.hash_extra_blake

/-- Phase G of `cn_slow_hash` (slow-hash.c lines 508–510): one Keccak
permutation of the 200-byte state, then the finisher selected by
`state.hs.b[0] & 3` applied to the entire state. -/
def cn_finish (P : Prims) (S : List Nat) : List Nat :=
  let S2 := P.hash_permutation S
  extra_hashes_sel P (S2.getD 0 0 &&& 3) S2

/-- Everything of `cn_slow_hash` (slow-hash.c lines 370–507) before the
final permutation: Keccak initialization, the variant inits (with
`r0`, `code0`, `tweak0` standing for the initial — in C uninitialized —
contents of the locals `r`, `code`, `tweak1_2`), scratchpad expansion,
register init, the 524288 main-loop iterations, and the absorption of
the scratchpad back into the 200-byte state, which is returned. -/
def cn_pre_final (P : Prims) (data : List Nat) (variant : Nat) (height : Nat)
    (r0 code0 tweak0 : List Nat) : List Nat :=
  let S := P.keccak1600 data
  let text := (S.drop 64).take 128
  let aes_key := S.take 32
  let tweak1_2 := if variant = 1 then zipXor ((S.drop 192).take 8) ((data.drop 35).take 8)
    else tweak0
  let b_second := if 2 ≤ variant then zipXor ((S.drop 64).take 16) ((S.drop 80).take 16)
    else List.replicate 16 0
  let division_result := if 2 ≤ variant then le64 (S.drop 96) else 0
  let sqrt_result := if 2 ≤ variant then le64 (S.drop 104) else 0
  let r := if 4 ≤ variant then
      [le32 (S.drop 96), le32 (S.drop 100), le32 (S.drop 104), le32 (S.drop 108)] ++ r0.drop 4
    else r0
  let code := if 4 ≤ variant then P.v4_random_math_init height else code0
  let expKey := P.oaes_expand aes_key
  let expanded := (List.range 16384).foldl
    (fun (acc : Mem × List Nat) i =>
      let t := pseudo_round_8 P expKey acc.2
      (writeBytes acc.1 (128 * i) t, t))
    ((fun _ => 0), text)
  let a0 := zipXor (S.take 16) ((S.drop 32).take 16)
  let b0 := zipXor ((S.drop 16).take 16) ((S.drop 48).take 16)
  let st0 : LoopState := LoopState.mk expanded.1 a0 (b0 ++ b_second) division_result sqrt_result r
  let stF := (List.range 524288).foldl (fun s _ => cn_loop_step P variant code tweak1_2 s) st0
  let expKey2 := P.oaes_expand ((S.drop 32).take 32)
  let textF := (List.range 16384).foldl (fun t i => absorb_round_8 P expKey2 stF.L i t) text
  S.take 64 ++ textF ++ S.drop 192

/-- The 32-byte digest computed by `cn_slow_hash` on the success path. -/
def cn_slow_hash_body (P : Prims) (data : List Nat) (variant : Nat) (height : Nat)
    (r0 code0 tweak0 : List Nat) : List Nat :=
  cn_finish P (cn_pre_final P data variant height r0 code0 tweak0)

/-- Shallow embedding of `cn_slow_hash` from `slow-hash.c` (lines
370–512).  The C code diagnoses `variant == 1 && length < 43` with
`fprintf(stderr, ...)` followed by `_exit(1)` before any variant-1
state is derived; this fatal termination is modelled as
`Except.error ()`.  On every other input the function runs to completion
and produces a 32-byte digest. -/
def cn_slow_hash (P : Prims) (data : List Nat) (variant : Nat) (height : Nat)
    (r0 code0 tweak0 : List Nat) : Except Unit (List Nat) :=
  if variant = 1 ∧ data.length < 43 then Except.error ()
  else Except.ok (cn_slow_hash_body P data variant height r0 code0 tweak0)

/-- A concrete instantiation of the external collaborators, used to
exhibit the pipeline theorems at closed inputs. -/
def trivialPrims : Prims where
  keccak1600 := fun _ => List.replicate 200 0
  oaes_expand := fun k => k
  aesb_single_round := fun blk _ => blk
  aesb_pseudo_round := fun blk _ => blk
  hash_permutation := fun s => s
  hash_extra_blake := fun _ => List.replicate 32 0
  hash_extra_groestl := fun _ => List.replicate 32 1
  hash_extra_jh := fun _ => List.replicate 32 2
  hash_extra_skein := fun _ => List.replicate 32 3
  v4_random_math_init := fun _ => []
  v4_random_math := fun _ r => r
  fp_sqrt := fun x => x

/-- C1: with `variant = 1`, an input shorter than 43 bytes is diagnosed
as a fatal precondition violation (the C code prints to stderr and calls
`_exit(1)`, modelled as `Except.error ()`), while every input of length
at least 43 proceeds normally and produces the digest. -/
theorem cn_variant1_length_precondition (P : Prims) (data : List Nat) (height : Nat)
    (r0 code0 tweak0 : List Nat) :
    (data.length < 43 → cn_slow_hash P data 1 height r0 code0 tweak0 = Except.error ()) ∧
    (43 ≤ data.length → cn_slow_hash P data 1 height r0 code0 tweak0 =
      Except.ok (cn_slow_hash_body P data 1 height r0 code0 tweak0)) := by
  constructor
  · intro h
    simp [cn_slow_hash, h]
  · intro h
    have hc : ¬ (1 = 1 ∧ data.length < 43) := by
      intro hc
      obtain ⟨-, h2⟩ := hc
      omega
    unfold cn_slow_hash
    rw [if_neg hc]

/-- Witness for C1 at concrete inputs on both sides of the bound. -/
theorem cn_variant1_length_precondition_witness :
    ((List.replicate 10 0 : List Nat).length < 43 ∧
      cn_slow_hash trivialPrims (List.replicate 10 0) 1 7 [] [] [] = Except.error ()) ∧
    (43 ≤ (List.replicate 43 0 : List Nat).length ∧
      cn_slow_hash trivialPrims (List.replicate 43 0) 1 7 [] [] [] =
        Except.ok (cn_slow_hash_body trivialPrims (List.replicate 43 0) 1 7 [] [] [])) :=
  ⟨⟨by decide, (cn_variant1_length_precondition trivialPrims (List.replicate 10 0) 7 [] [] []).1
      (by decide)⟩,
   ⟨by decide, (cn_variant1_length_precondition trivialPrims (List.replicate 43 0) 7 [] [] []).2
      (by decide)⟩⟩

theorem and_three_eq_mod_four (x : Nat) : x &&& 3 = x % 4 := by
  have h := Nat.and_pow_two_sub_one_eq_mod x 2
  norm_num at h
  exact h

/-- C5: on the success path the digest of `cn_slow_hash` is obtained by
applying exactly one Keccak permutation to the absorbed 200-byte state
and then the finisher selected by byte 0 of the *permuted* state mod 4
(0 → BLAKE-256, 1 → Groestl-256, 2 → JH-256, 3 → Skein-256, the order
of the `extra_hashes` array) to the entire permuted state; the selection
reads nothing else. -/
theorem cn_finisher_selection (P : Prims) (data : List Nat) (variant height : Nat)
    (r0 code0 tweak0 : List Nat) :
    (¬ (variant = 1 ∧ data.length < 43) →
      cn_slow_hash P data variant height r0 code0 tweak0 =
        Except.ok (cn_finish P (cn_pre_final P data variant height r0 code0 tweak0))) ∧
    cn_finish P (cn_pre_final P data variant height r0 code0 tweak0) =
      extra_hashes_sel P
        ((P.hash_permutation (cn_pre_final P data variant height r0 code0 tweak0)).getD 0 0 % 4)
        (P.hash_permutation (cn_pre_final P data variant height r0 code0 tweak0)) := by
  constructor
  · intro h
    simp [cn_slow_hash, h, cn_slow_hash_body]
  · simp [cn_finish, and_three_eq_mod_four]

/-- Witness for C5 at a concrete input. -/
theorem cn_finisher_selection_witness :
    (¬ ((0:Nat) = 1 ∧ ([] : List Nat).length < 43)) ∧
      cn_slow_hash trivialPrims [] 0 9 [] [] [] =
        Except.ok (cn_finish trivialPrims (cn_pre_final trivialPrims [] 0 9 [] [] [])) :=
  ⟨by decide, (cn_finisher_selection trivialPrims [] 0 9 [] [] []).1 (by decide)⟩

/-- When `variant ≠ 1`, one loop iteration never reads `tweak1_2`. -/
theorem cn_loop_step_tweak_irrel (P : Prims) (variant : Nat) (code tw1 tw2 : List Nat)
    (hv : variant ≠ 1) (s : LoopState) :
    cn_loop_step P variant code tw1 s = cn_loop_step P variant code tw2 s := by
  simp [cn_loop_step, hv]

/-- When `variant < 4`, one loop iteration neither reads nor changes the
register file `r`, and never reads `code`. -/
theorem cn_loop_step_r_code (P : Prims) (variant : Nat) (code1 code2 tw : List Nat)
    (hv : variant < 4) (s : LoopState) (r1 r2 : List Nat) :
    cn_loop_step P variant code1 tw { s with r := r1 } =
      { cn_loop_step P variant code2 tw { s with r := r2 } with r := r1 } := by
  have h4 : ¬ 4 ≤ variant := by omega
  simp [cn_loop_step, VARIANT4_RANDOM_MATH, h4]

theorem cn_loop_fold_r_code (P : Prims) (variant : Nat) (code1 code2 tw : List Nat)
    (hv : variant < 4) :
    ∀ (l : List Nat) (s : LoopState) (r1 r2 : List Nat),
      l.foldl (fun s _ => cn_loop_step P variant code1 tw s) { s with r := r1 } =
        { l.foldl (fun s _ => cn_loop_step P variant code2 tw s) { s with r := r2 }
            with r := r1 } := by
  intro l
  induction l with
  | nil =>
    intro s r1 r2
    rfl
  | cons x xs ih =>
    intro s r1 r2
    simp only [List.foldl_cons]
    rw [cn_loop_step_r_code P variant code1 code2 tw hv s r1 r2]
    exact ih (cn_loop_step P variant code2 tw { s with r := r2 }) r1
      (cn_loop_step P variant code2 tw { s with r := r2 }).r

theorem cn_loop_fold_L_eq (P : Prims) (variant : Nat) (code1 code2 tw : List Nat)
    (hv : variant < 4) (l : List Nat) (A : Mem) (a b : List Nat) (dr sr : Nat)
    (r1 r2 : List Nat) :
    (l.foldl (fun s _ => cn_loop_step P variant code1 tw s) (LoopState.mk A a b dr sr r1)).L =
      (l.foldl (fun s _ => cn_loop_step P variant code2 tw s) (LoopState.mk A a b dr sr r2)).L := by
  have h := cn_loop_fold_r_code P variant code1 code2 tw hv l (LoopState.mk A a b dr sr r2) r1 r2
  have h2 := congrArg LoopState.L h
  simpa using h2

theorem cn_loop_fold_tweak (P : Prims) (variant : Nat) (code tw1 tw2 : List Nat)
    (hv : variant ≠ 1) (l : List Nat) (s : LoopState) :
    l.foldl (fun s _ => cn_loop_step P variant code tw1 s) s =
      l.foldl (fun s _ => cn_loop_step P variant code tw2 s) s := by
  have hf : (fun (s : LoopState) (_ : Nat) => cn_loop_step P variant code tw1 s) =
      (fun (s : LoopState) (_ : Nat) => cn_loop_step P variant code tw2 s) := by
    funext s x
    exact cn_loop_step_tweak_irrel P variant code tw1 tw2 hv s
  rw [hf]

/-- C10: the digest does not depend on the initial (in C uninitialized)
contents of the conditionally-initialized locals: for `variant < 4` the
initial contents of the `r` register file and the `code` buffer are
never read, and for `variant ≠ 1` the initial contents of `tweak1_2`
are never read, so two runs differing only there return identical
results. -/
theorem cn_uninitialized_locals_irrelevant (P : Prims) (data : List Nat) (variant height : Nat)
    (r0 r0' code0 code0' tweak0 tweak0' : List Nat) :
    (variant < 4 →
      cn_slow_hash P data variant height r0 code0 tweak0 =
        cn_slow_hash P data variant height r0' code0' tweak0) ∧
    (variant ≠ 1 →
      cn_slow_hash P data variant height r0 code0 tweak0 =
        cn_slow_hash P data variant height r0 code0 tweak0') := by
  constructor
  · intro h4
    have h4' : ¬ 4 ≤ variant := by omega
    have hb : cn_slow_hash_body P data variant height r0 code0 tweak0 =
        cn_slow_hash_body P data variant height r0' code0' tweak0 := by
      simp only [cn_slow_hash_body, cn_pre_final, if_neg h4']
      rw [cn_loop_fold_L_eq P variant code0 code0'
        (if variant = 1 then zipXor (((P.keccak1600 data).drop 192).take 8)
          ((data.drop 35).take 8) else tweak0) h4]
    simp only [cn_slow_hash, hb]
  · intro h1
    have hc : (variant = 1 ∧ data.length < 43) = False := by
      simp only [eq_iff_iff, iff_false]
      intro hx
      exact h1 hx.1
    have hb : cn_slow_hash_body P data variant height r0 code0 tweak0 =
        cn_slow_hash_body P data variant height r0 code0 tweak0' := by
      simp only [cn_slow_hash_body, cn_pre_final, if_neg h1]
      rw [cn_loop_fold_tweak P variant
        (if 4 ≤ variant then P.v4_random_math_init height else code0) tweak0 tweak0' h1]
    simp only [cn_slow_hash, hb]

/-- Witness for C10 at concrete inputs. -/
theorem cn_uninitialized_locals_irrelevant_witness :
    ((0:Nat) < 4 ∧
      cn_slow_hash trivialPrims [] 0 5 [1] [2] [3] =
        cn_slow_hash trivialPrims [] 0 5 [4] [5] [3]) ∧
    ((0:Nat) ≠ 1 ∧
      cn_slow_hash trivialPrims [] 0 5 [1] [2] [3] =
        cn_slow_hash trivialPrims [] 0 5 [1] [2] [6]) :=
  ⟨⟨by decide, (cn_uninitialized_locals_irrelevant trivialPrims [] 0 5 [1] [4] [2] [5] [3] [6]).1
      (by decide)⟩,
   ⟨by decide, (cn_uninitialized_locals_irrelevant trivialPrims [] 0 5 [1] [4] [2] [5] [3] [6]).2
      (by decide)⟩⟩

/-- `uint32_to_bytes_be` from `blake256.c` (lines 6–11): the four bytes
of a 32-bit word, big-endian. -/
def uint32_to_bytes_be (v : Nat) : List Nat :=
  [(v >>> 24) % 256, (v >>> 16) % 256, (v >>> 8) % 256, v % 256]

/-- `be_bytes_to_uint32` from `blake256.c` (lines 14–19): big-endian
32-bit load from four bytes. -/
def be_bytes_to_uint32 (bs : List Nat) : Nat :=
  (bs.getD 0 0 % 256) <<< 24 ||| (bs.getD 1 0 % 256) <<< 16 |||
    (bs.getD 2 0 % 256) <<< 8 ||| bs.getD 3 0 % 256

/-- The `sigma` permutation table of `blake256.c` (lines 32–47). -/
def blakeSigma : List (List Nat) :=
  [[0, 1, 2, 3, 4, 5, 6, 7, 8, 9, 10, 11, 12, 13, 14, 15],
   [14, 10, 4, 8, 9, 15, 13, 6, 1, 12, 0, 2, 11, 7, 5, 3],
   [11, 8, 12, 0, 5, 2, 15, 13, 10, 14, 3, 6, 7, 1, 9, 4],
   [7, 9, 3, 1, 13, 12, 11, 14, 2, 6, 5, 10, 4, 0, 15, 8],
   [9, 0, 5, 7, 2, 4, 10, 15, 14, 1, 11, 12, 6, 8, 3, 13],
   [2, 12, 6, 10, 0, 11, 8, 3, 4, 13, 7, 5, 15, 14, 1, 9],
   [12, 5, 1, 15, 14, 13, 4, 10, 0, 7, 6, 3, 9, 2, 8, 11],
   [13, 11, 7, 14, 12, 1, 3, 9, 5, 0, 15, 4, 8, 6, 2, 10],
   [6, 15, 14, 9, 11, 3, 0, 8, 12, 2, 13, 7, 1, 4, 10, 5],
   [10, 2, 8, 4, 7, 6, 1, 5, 15, 11, 9, 14, 3, 12, 13, 0],
   [0, 1, 2, 3, 4, 5, 6, 7, 8, 9, 10, 11, 12, 13, 14, 15],
   [14, 10, 4, 8, 9, 15, 13, 6, 1, 12, 0, 2, 11, 7, 5, 3],
   [11, 8, 12, 0, 5, 2, 15, 13, 10, 14, 3, 6, 7, 1, 9, 4],
   [7, 9, 3, 1, 13, 12, 11, 14, 2, 6, 5, 10, 4, 0, 15, 8]]

/-- The `cst` constant table of `blake256.c` (lines 49–54). -/
def blakeCst : List Nat :=
  [0x243F6A88, 0x85A308D3, 0x13198A2E, 0x03707344,
   0xA4093822, 0x299F31D0, 0x082EFA98, 0xEC4E6C89,
   0x452821E6, 0x38D01377, 0xBE5466CF, 0x34E90C6C,
   0xC0AC29B7, 0xC97C50DD, 0x3F84D5B5, 0xB5470917]

/-- The static `padding` array of `blake256.c` (lines 56–59): `0x80`
followed by 63 zero bytes. -/
def blakePadding : List Nat := 0x80 :: List.replicate 63 0

/-- The `ROT` macro of `blake256.c` (line 65) on 32-bit words. -/
def blakeRot (x n : Nat) : Nat := ((x <<< (32 - n)) % 2 ^ 32) ||| (x >>> n)

/-- The `G` macro of `blake256.c` (lines 66–74), acting on the 16-word
working vector `v` with message words `m`, round index `i` and indices
`a b c d e`.  All adds wrap mod `2^32`. -/
def blakeG (m v : List Nat) (i a b c d e : Nat) : List Nat :=
  let sig := blakeSigma.getD i []
  let va := (v.getD a 0 + (m.getD (sig.getD e 0) 0 ^^^ blakeCst.getD (sig.getD (e + 1) 0) 0) +
    v.getD b 0) % 2 ^ 32
  let v := v.set a va
  let vd := blakeRot (v.getD d 0 ^^^ va) 16
  let v := v.set d vd
  let vc := (v.getD c 0 + vd) % 2 ^ 32
  let v := v.set c vc
  let vb := blakeRot (v.getD b 0 ^^^ vc) 12
  let v := v.set b vb
  let va2 := (v.getD a 0 + (m.getD (sig.getD (e + 1) 0) 0 ^^^ blakeCst.getD (sig.getD e 0) 0) +
    v.getD b 0) % 2 ^ 32
  let v := v.set a va2
  let vd2 := blakeRot (v.getD d 0 ^^^ va2) 8
  let v := v.set d vd2
  let vc2 := (v.getD c 0 + vd2) % 2 ^ 32
  let v := v.set c vc2
  let vb2 := blakeRot (v.getD b 0 ^^^ vc2) 7
  v.set b vb2

/-- `blake256_compress` from `blake256.c` (lines 62–107): message words
loaded big-endian, working vector initialized from `h`, `s` and the
constants, counter XORed in unless `nullt`, 14 rounds of 8 `G` calls,
then the feed-forward into `h`. -/
def blake256_compress (h s : List Nat) (t0 t1 : Nat) (nullt : Bool) (block : List Nat) :
    List Nat :=
  let m := (List.range 16).map (fun i => be_bytes_to_uint32 (block.drop (4 * i)))
  let v := h.take 8 ++
    [s.getD 0 0 ^^^ 0x243F6A88, s.getD 1 0 ^^^ 0x85A308D3,
     s.getD 2 0 ^^^ 0x13198A2E, s.getD 3 0 ^^^ 0x03707344,
     0xA4093822, 0x299F31D0, 0x082EFA98, 0xEC4E6C89]
  let v := if nullt then v else
    ((((v.set 12 (v.getD 12 0 ^^^ t0)).set 13
      ((v.set 12 (v.getD 12 0 ^^^ t0)).getD 13 0 ^^^ t0)).set 14
      (v.getD 14 0 ^^^ t1)).set 15 (v.getD 15 0 ^^^ t1))
  let v := (List.range 14).foldl (fun v i =>
    let v := blakeG m v i 0 4 8 12 0
    let v := blakeG m v i 1 5 9 13 2
    let v := blakeG m v i 2 6 10 14 4
    let v := blakeG m v i 3 7 11 15 6
    let v := blakeG m v i 3 4 9 14 14
    let v := blakeG m v i 2 7 8 13 12
    let v := blakeG m v i 0 5 10 15 8
    blakeG m v i 1 6 11 12 10) v
  let h := (List.range 16).foldl (fun hh i => hh.set (i % 8) (hh.getD (i % 8) 0 ^^^ v.getD i 0)) h
  (List.range 8).foldl (fun hh i => hh.set i (hh.getD i 0 ^^^ s.getD (i % 4) 0)) h

/-- The `state` struct of `blake256.c` (lines 21–25).  `buf` holds the
currently buffered bytes (the first `buflen / 8` bytes of the C `buf`
array; the C code only ever reads that prefix, and reads the full
64-byte array only at the moment it has just been filled).  `trace` is a
ghost field recording each 64-byte block passed to
`blake256_compress`, in order; it influences nothing. -/
structure Bstate where
  h : List Nat
  s : List Nat
  t0 : Nat
  t1 : Nat
  buf : List Nat
  buflen : Nat
  nullt : Bool
  trace : List (List Nat)

/-- `blake256_init` from `blake256.c` (lines 109–120). -/
def blake256_init : Bstate where
  h := [0x6A09E667, 0xBB67AE85, 0x3C6EF372, 0xA54FF53A,
        0x510E527F, 0x9B05688C, 0x1F83D9AB, 0x5BE0CD19]
  s := [0, 0, 0, 0]
  t0 := 0
  t1 := 0
  buf := []
  buflen := 0
  nullt := false
  trace := []

/-- The `while (datalen >= 512)` loop of `blake256_update`
(blake256.c lines 137–143): full 64-byte blocks are compressed straight
from the input. -/
def blake256_update_loop (S : Bstate) (data : List Nat) (datalen : Nat) :
    Bstate × List Nat × Nat :=
  if 512 ≤ datalen then
    blake256_update_loop
      { S with
          h := blake256_compress S.h S.s ((S.t0 + 512) % 2 ^ 32)
            (if (S.t0 + 512) % 2 ^ 32 = 0 then (S.t1 + 1) % 2 ^ 32 else S.t1) S.nullt
            (data.take 64),
          t0 := (S.t0 + 512) % 2 ^ 32,
          t1 := if (S.t0 + 512) % 2 ^ 32 = 0 then (S.t1 + 1) % 2 ^ 32 else S.t1,
          trace := S.trace ++ [data.take 64] }
      (data.drop 64) (datalen - 512)
  else (S, data, datalen)
termination_by datalen
decreasing_by omega

/-- `blake256_update` from `blake256.c` (lines 123–151).  `datalen` is in
bits.  Phase 1: if there are buffered bytes and the input at least fills
the block, fill and compress.  Phase 2: compress full blocks straight
from the input.  Phase 3: buffer the remainder (`buflen` is set to 0
when no input remains, exactly as in the C code). -/
def blake256_update (S : Bstate) (data : List Nat) (datalen : Nat) : Bstate :=
  let left := S.buflen >>> 3
  let fill := 64 - left
  let step1 : Bstate × List Nat × Nat × Nat :=
    if left ≠ 0 ∧ fill ≤ datalen >>> 3 then
      let block := S.buf ++ data.take fill
      let t0 := (S.t0 + 512) % 2 ^ 32
      let t1 := if t0 = 0 then (S.t1 + 1) % 2 ^ 32 else S.t1
      let h2 := blake256_compress S.h S.s t0 t1 S.nullt block
      ({ S with h := h2, t0 := t0, t1 := t1, buf := [], trace := S.trace ++ [block] },
        data.drop fill, datalen - fill * 8, 0)
    else (S, data, datalen, left)
  let lp := blake256_update_loop step1.1 step1.2.1 step1.2.2.1
  if 0 < lp.2.2 then
    { lp.1 with buf := lp.1.buf ++ lp.2.1.take (lp.2.2 >>> 3), buflen := (step1.2.2.2 <<< 3) + lp.2.2 }
  else
    { lp.1 with buf := [], buflen := 0 }

/-- `blake256_final_h` from `blake256.c` (lines 153–189): computes the
message bit length from the counter, pads (one `pa` byte when exactly
440 bits are buffered; otherwise `0x80`, zeros, then `pb`), appends the
64-bit big-endian length, and emits the digest big-endian.  The
`t[0] -= …` compensations are wrapping u32 subtractions. -/
def blake256_final_h (S : Bstate) (pa pb : Nat) : Bstate × List Nat :=
  let lo := (S.t0 + S.buflen) % 2 ^ 32
  let hi := if lo < S.buflen then (S.t1 + 1) % 2 ^ 32 else S.t1
  let msglen := uint32_to_bytes_be hi ++ uint32_to_bytes_be lo
  let S1 :=
    if S.buflen = 440 then
      let Sx := { S with t0 := (S.t0 + 2 ^ 32 - 8) % 2 ^ 32 }
      blake256_update Sx [pa] 8
    else
      let Sy :=
        if S.buflen < 440 then
          let Sz := if S.buflen = 0 then { S with nullt := true } else S
          let n := 440 - Sz.buflen
          blake256_update { Sz with t0 := (Sz.t0 + 2 ^ 32 - n) % 2 ^ 32 } blakePadding n
        else
          let n := 512 - S.buflen
          let Sz := blake256_update { S with t0 := (S.t0 + 2 ^ 32 - n) % 2 ^ 32 } blakePadding n
          let Sz2 := blake256_update { Sz with t0 := (Sz.t0 + 2 ^ 32 - 440) % 2 ^ 32 }
            (blakePadding.drop 1) 440
          { Sz2 with nullt := true }
      let Sy2 := blake256_update Sy [pb] 8
      { Sy2 with t0 := (Sy2.t0 + 2 ^ 32 - 8) % 2 ^ 32 }
  let S3 := blake256_update { S1 with t0 := (S1.t0 + 2 ^ 32 - 64) % 2 ^ 32 } msglen 64
  (S3, ((List.range 8).map (fun i => uint32_to_bytes_be (S3.h.getD i 0))).flatten)

/-- `blake256_final` from `blake256.c` (lines 191–193): terminator bytes
`0x81` (merged 1-bit domain) and `0x01`. -/
def blake256_final (S : Bstate) : Bstate × List Nat := blake256_final_h S 0x81 0x01

/-- `blake256_hash` from `blake256.c` (lines 196–201), together with the
ghost trace of compressed blocks.  The C `inlen` parameter is a
`uint64_t` and `datalen = inlen * 8` wraps accordingly. -/
def blake256_hash (inp : List Nat) : List Nat × List (List Nat) :=
  let S := blake256_update blake256_init inp ((8 * inp.length) % 2 ^ 64)
  let fin := blake256_final S
  (fin.2, fin.1.trace)

/-- Specification-side padding stream of BLAKE-256 (spec §4.8, claim
C9): when the buffered length is exactly 440 bits, the single terminator
byte `0x81`; otherwise `0x80`, zero bytes, then the terminator `0x01`;
in both cases followed by the total message bit-length as a 64-bit
big-endian value (high u32 then low u32). -/
def blake_pad_spec (len : Nat) : List Nat :=
  let bitlen := 8 * len
  let lenbytes := uint32_to_bytes_be (bitlen / 2 ^ 32 % 2 ^ 32) ++
    uint32_to_bytes_be (bitlen % 2 ^ 32)
  if bitlen % 512 = 440 then 0x81 :: lenbytes
  else
    let zeros := (952 - (bitlen % 512 + 8)) % 512 / 8
    0x80 :: (List.replicate zeros 0 ++ 0x01 :: lenbytes)

/-- The first `q` 64-byte chunks of a byte list. -/
def chunksOf64 (data : List Nat) : Nat → List (List Nat)
  | 0 => []
  | q + 1 => data.take 64 :: chunksOf64 (data.drop 64) q

theorem chunksOf64_flatten : ∀ (q : Nat) (data : List Nat), 64 * q ≤ data.length →
    (chunksOf64 data q).flatten = data.take (64 * q) := by
  intro q
  induction q with
  | zero => intro data _; simp [chunksOf64]
  | succ p ih =>
    intro data hq
    have hlen : 64 * p ≤ (data.drop 64).length := by
      rw [List.length_drop]
      omega
    simp only [chunksOf64, List.flatten_cons, ih (data.drop 64) hlen]
    rw [List.take_drop]
    have h1 : List.take 64 data = List.take 64 (List.take (64 + 64 * p) data) := by
      rw [List.take_take]
      congr 1
      omega
    rw [h1, List.take_append_drop]
    congr 1
    omega

theorem chunksOf64_mem_length : ∀ (q : Nat) (data : List Nat), 64 * q ≤ data.length →
    ∀ blk ∈ chunksOf64 data q, blk.length = 64 := by
  intro q
  induction q with
  | zero => intro data _ blk hblk; simp [chunksOf64] at hblk
  | succ p ih =>
    intro data hq blk hblk
    simp only [chunksOf64, List.mem_cons] at hblk
    rcases hblk with h | h
    · rw [h, List.length_take]
      omega
    · exact ih (data.drop 64) (by rw [List.length_drop]; omega) blk h

/-- The block-compression loop of `blake256_update` consumes the input in
64-byte chunks: it records `datalen / 512` full blocks in the trace,
leaves the buffer and flags untouched, and returns the remaining data
and bit count. -/
theorem blake256_update_loop_spec (S : Bstate) (data : List Nat) (datalen : Nat) :
    (blake256_update_loop S data datalen).1.trace = S.trace ++ chunksOf64 data (datalen / 512) ∧
    (blake256_update_loop S data datalen).1.buf = S.buf ∧
    (blake256_update_loop S data datalen).1.buflen = S.buflen ∧
    (blake256_update_loop S data datalen).1.s = S.s ∧
    (blake256_update_loop S data datalen).1.nullt = S.nullt ∧
    (blake256_update_loop S data datalen).2.1 = data.drop (64 * (datalen / 512)) ∧
    (blake256_update_loop S data datalen).2.2 = datalen % 512 := by
  induction S, data, datalen using blake256_update_loop.induct with
  | case1 S data datalen hge ih =>
    rw [blake256_update_loop, if_pos hge]
    simp only [dite_eq_ite] at ih
    have hq : datalen / 512 = (datalen - 512) / 512 + 1 := by omega
    have hm : datalen % 512 = (datalen - 512) % 512 := by omega
    refine ⟨?_, ?_, ?_, ?_, ?_, ?_, ?_⟩
    · rw [ih.1]
      simp only [hq, chunksOf64]
      simp [List.append_assoc]
    · rw [ih.2.1]
    · rw [ih.2.2.1]
    · rw [ih.2.2.2.1]
    · rw [ih.2.2.2.2.1]
    · rw [ih.2.2.2.2.2.1, List.drop_drop, hq]
      congr 1
      omega
    · rw [ih.2.2.2.2.2.2, hm]
  | case2 S data datalen hlt =>
    rw [blake256_update_loop, if_neg hlt]
    have hq : datalen / 512 = 0 := by omega
    have hm : datalen % 512 = datalen := by omega
    simp [hq, hm, chunksOf64]

/-- Counter correctness of the block loop: starting from a counter worth
`512 * B` bits, after consuming `datalen / 512` more blocks the two u32
halves hold `512 * (B + datalen / 512)`, provided the total stays below
`2^64`. -/
theorem blake256_update_loop_t (S : Bstate) (data : List Nat) (datalen : Nat) :
    ∀ B : Nat, S.t0 = 512 * B % 2 ^ 32 → S.t1 = 512 * B / 2 ^ 32 →
    512 * B + datalen < 2 ^ 64 →
    (blake256_update_loop S data datalen).1.t0 = 512 * (B + datalen / 512) % 2 ^ 32 ∧
    (blake256_update_loop S data datalen).1.t1 = 512 * (B + datalen / 512) / 2 ^ 32 := by
  induction S, data, datalen using blake256_update_loop.induct with
  | case1 S data datalen hge ih =>
    intro B h0 h1 hB
    rw [blake256_update_loop, if_pos hge]
    simp only [dite_eq_ite] at ih
    have h32 : (2:Nat) ^ 32 = 4294967296 := by norm_num
    have h64 : (2:Nat) ^ 64 = 18446744073709551616 := by norm_num
    have e0 : (S.t0 + 512) % 2 ^ 32 = 512 * (B + 1) % 2 ^ 32 := by
      rw [h0, Nat.mod_add_mod]
      congr 1
    have e1 : (if (S.t0 + 512) % 2 ^ 32 = 0 then (S.t1 + 1) % 2 ^ 32 else S.t1) =
        512 * (B + 1) / 2 ^ 32 := by
      rw [e0, h1]
      by_cases hz : 512 * (B + 1) % 2 ^ 32 = 0
      · rw [if_pos hz]
        rw [h32] at hz ⊢
        rw [h64] at hB
        omega
      · rw [if_neg hz]
        rw [h32] at hz ⊢
        rw [h64] at hB
        omega
    have := ih (B + 1) (by simpa using e0) (by simpa using e1) (by omega)
    have hq : B + 1 + (datalen - 512) / 512 = B + datalen / 512 := by omega
    rw [hq] at this
    exact this
  | case2 S data datalen hlt =>
    intro B h0 h1 hB
    rw [blake256_update_loop, if_neg hlt]
    have hq : datalen / 512 = 0 := by omega
    simp [hq, h0, h1]

/-- `blake256_update` from a state with an empty buffer: the loop eats
`datalen / 512` blocks and the remainder is buffered. -/
theorem blake256_update_fresh (S : Bstate) (data : List Nat) (datalen : Nat)
    (hlen : S.buflen = 0) (hbuf : S.buf = []) :
    blake256_update S data datalen =
      { (blake256_update_loop S data datalen).1 with
          buf := (blake256_update_loop S data datalen).1.buf ++
            (data.drop (64 * (datalen / 512))).take ((datalen % 512) >>> 3),
          buflen := datalen % 512 } := by
  have hc : ¬ (S.buflen >>> 3 ≠ 0 ∧ 64 - S.buflen >>> 3 ≤ datalen >>> 3) := by
    intro hcc
    rw [hlen] at hcc
    simp at hcc
  have hspec := blake256_update_loop_spec S data datalen
  simp only [blake256_update, if_neg hc]
  by_cases hr : 0 < (blake256_update_loop S data datalen).2.2
  · rw [if_pos hr]
    rw [hspec.2.2.2.2.2.1, hspec.2.2.2.2.2.2, hlen]
    norm_num
  · rw [if_neg hr]
    rw [hspec.2.2.2.2.2.2] at hr
    have hm : datalen % 512 = 0 := by omega
    rw [hm, hspec.2.1, hbuf]
    simp

/-- `blake256_update` when the input does not complete a block: the bytes
are only buffered. -/
theorem blake256_update_buffer_only (S : Bstate) (data : List Nat) (datalen : Nat)
    (hsmall : datalen < 512) (hpos : 0 < datalen)
    (hnofill : S.buflen >>> 3 = 0 ∨ datalen >>> 3 < 64 - S.buflen >>> 3) :
    blake256_update S data datalen =
      { S with buf := S.buf ++ data.take (datalen >>> 3), buflen := ((S.buflen >>> 3) <<< 3) + datalen } := by
  have hc : ¬ (S.buflen >>> 3 ≠ 0 ∧ 64 - S.buflen >>> 3 ≤ datalen >>> 3) := by
    rcases hnofill with h | h
    · intro hcc
      exact hcc.1 h
    · intro hcc
      omega
  have hloop : blake256_update_loop S data datalen = (S, data, datalen) := by
    rw [blake256_update_loop, if_neg (by omega : ¬ 512 ≤ datalen)]
  simp only [blake256_update, if_neg hc, hloop, if_pos hpos]

/-- `blake256_update` when the input exactly fills the partial block: one
compression of `buf ++ data`, leaving an empty buffer. -/
theorem blake256_update_fill_exact (S : Bstate) (data : List Nat) (datalen : Nat)
    (hleft : S.buflen >>> 3 ≠ 0) (hdl : datalen = (64 - S.buflen >>> 3) * 8) :
    blake256_update S data datalen =
      { S with
          h := blake256_compress S.h S.s ((S.t0 + 512) % 2 ^ 32)
            (if (S.t0 + 512) % 2 ^ 32 = 0 then (S.t1 + 1) % 2 ^ 32 else S.t1) S.nullt
            (S.buf ++ data.take (64 - S.buflen >>> 3)),
          t0 := (S.t0 + 512) % 2 ^ 32,
          t1 := if (S.t0 + 512) % 2 ^ 32 = 0 then (S.t1 + 1) % 2 ^ 32 else S.t1,
          buf := [], buflen := 0,
          trace := S.trace ++ [S.buf ++ data.take (64 - S.buflen >>> 3)] } := by
  have hfill : datalen >>> 3 = 64 - S.buflen >>> 3 := by
    rw [hdl]
    omega
  have hc : S.buflen >>> 3 ≠ 0 ∧ 64 - S.buflen >>> 3 ≤ datalen >>> 3 := ⟨hleft, by omega⟩
  have hloop : ∀ T : Bstate, blake256_update_loop T (data.drop (64 - S.buflen >>> 3))
        (datalen - (64 - S.buflen >>> 3) * 8) =
      (T, data.drop (64 - S.buflen >>> 3), datalen - (64 - S.buflen >>> 3) * 8) := by
    intro T
    rw [blake256_update_loop, if_neg (by omega : ¬ 512 ≤ datalen - (64 - S.buflen >>> 3) * 8)]
  simp only [blake256_update, if_pos hc]
  rw [hloop]
  rw [if_neg (show ¬ 0 < datalen - (64 - S.buflen >>> 3) * 8 by omega)]

/-- The 8-byte big-endian message-length field computed at the top of
`blake256_final_h` from the counter and the buffered bit count. -/
def blake_msglen (t0 t1 buflen : Nat) : List Nat :=
  uint32_to_bytes_be (if (t0 + buflen) % 2 ^ 32 < buflen then (t1 + 1) % 2 ^ 32 else t1) ++
    uint32_to_bytes_be ((t0 + buflen) % 2 ^ 32)

theorem blake_msglen_length (t0 t1 buflen : Nat) : (blake_msglen t0 t1 buflen).length = 8 := by
  simp [blake_msglen, uint32_to_bytes_be]

theorem blake_msglen_fold (t0 t1 buflen : Nat) :
    uint32_to_bytes_be (if (t0 + buflen) % 2 ^ 32 < buflen then (t1 + 1) % 2 ^ 32 else t1) ++
      uint32_to_bytes_be ((t0 + buflen) % 2 ^ 32) = blake_msglen t0 t1 buflen := rfl

theorem blakePadding_take (k : Nat) (hk1 : 0 < k) (hk : k ≤ 64) :
    blakePadding.take k = 0x80 :: List.replicate (k - 1) 0 := by
  obtain ⟨p, rfl⟩ : ∃ p, k = p + 1 := ⟨k - 1, by omega⟩
  simp only [blakePadding, List.take_succ_cons, Nat.add_sub_cancel]
  congr 1
  rw [List.take_replicate]
  congr 1
  omega

/-- `blake256_update_buffer_only` restated on an explicit state record. -/
theorem update_small_mk (H s4 : List Nat) (t0 t1 : Nat) (bufv : List Nat) (bl : Nat) (nt : Bool)
    (tr : List (List Nat)) (data : List Nat) (dl : Nat)
    (hsmall : dl < 512) (hpos : 0 < dl) (hnf : bl >>> 3 = 0 ∨ dl >>> 3 < 64 - bl >>> 3) :
    blake256_update (Bstate.mk H s4 t0 t1 bufv bl nt tr) data dl =
      Bstate.mk H s4 t0 t1 (bufv ++ data.take (dl >>> 3)) (((bl >>> 3) <<< 3) + dl) nt tr := by
  have h := blake256_update_buffer_only (Bstate.mk H s4 t0 t1 bufv bl nt tr) data dl hsmall hpos
    (by simpa using hnf)
  simpa using h

/-- `blake256_update_fill_exact` restated on an explicit state record. -/
theorem update_fill_mk (H s4 : List Nat) (t0 t1 : Nat) (bufv : List Nat) (bl : Nat) (nt : Bool)
    (tr : List (List Nat)) (data : List Nat) (dl : Nat)
    (hleft : bl >>> 3 ≠ 0) (hdl : dl = (64 - bl >>> 3) * 8) :
    blake256_update (Bstate.mk H s4 t0 t1 bufv bl nt tr) data dl =
      Bstate.mk
        (blake256_compress H s4 ((t0 + 512) % 2 ^ 32)
          (if (t0 + 512) % 2 ^ 32 = 0 then (t1 + 1) % 2 ^ 32 else t1) nt
          (bufv ++ data.take (64 - bl >>> 3)))
        s4 ((t0 + 512) % 2 ^ 32)
        (if (t0 + 512) % 2 ^ 32 = 0 then (t1 + 1) % 2 ^ 32 else t1)
        [] 0 nt (tr ++ [bufv ++ data.take (64 - bl >>> 3)]) := by
  have h := blake256_update_fill_exact (Bstate.mk H s4 t0 t1 bufv bl nt tr) data dl
    (by simpa using hleft) (by simpa using hdl)
  simpa using h

/-- `blake256_final_h` when exactly 440 bits (55 bytes) are buffered: a
single terminator byte `pa` and the 8 length bytes complete the block
(one compression). -/
theorem blake256_final_trace_440 (H s4 : List Nat) (t0 t1 : Nat) (bufv : List Nat)
    (nt : Bool) (tr : List (List Nat)) (pa pb : Nat) :
    (blake256_final_h (Bstate.mk H s4 t0 t1 bufv 440 nt tr) pa pb).1.trace =
      tr ++ [bufv ++ pa :: blake_msglen t0 t1 440] := by
  have h1 := update_small_mk H s4 ((t0 + 2 ^ 32 - 8) % 2 ^ 32) t1 bufv 440 nt tr [pa] 8
    (by norm_num) (by norm_num) (by decide)
  have htk : [pa].take ((8:Nat) >>> 3) = [pa] := rfl
  have hbl : ((((440:Nat) >>> 3) <<< 3) + 8) = 448 := rfl
  rw [htk, hbl] at h1
  have h2 := update_fill_mk H s4 (((t0 + 2 ^ 32 - 8) % 2 ^ 32 + 2 ^ 32 - 64) % 2 ^ 32) t1
    (bufv ++ [pa]) 448 nt tr (blake_msglen t0 t1 440) 64 (by decide) (by decide)
  have htk2 : (blake_msglen t0 t1 440).take (64 - (448:Nat) >>> 3) = blake_msglen t0 t1 440 :=
    List.take_of_length_le (by rw [blake_msglen_length]; decide)
  rw [htk2] at h2
  simp only [blake256_final_h, reduceIte, blake_msglen_fold]
  rw [h1]
  simp only []
  rw [h2]
  simp [List.append_assoc]

/-- `blake256_final_h` when fewer than 440 bits are buffered (and at
least one byte is): pad with `0x80` and zeros to 440 bits, append `pb`
and the 8 length bytes (one compression). -/
theorem blake256_final_trace_lt (H s4 : List Nat) (t0 t1 : Nat) (bufv : List Nat)
    (nt : Bool) (tr : List (List Nat)) (pa pb : Nat) (r : Nat) (hr0 : 0 < r) (hr : r < 55) :
    (blake256_final_h (Bstate.mk H s4 t0 t1 bufv (8 * r) nt tr) pa pb).1.trace =
      tr ++ [bufv ++ 0x80 :: (List.replicate (54 - r) 0 ++ pb :: blake_msglen t0 t1 (8 * r))] := by
  have h1 := update_small_mk H s4 ((t0 + 2 ^ 32 - (440 - 8 * r)) % 2 ^ 32) t1 bufv (8 * r) nt tr
    blakePadding (440 - 8 * r) (by omega) (by omega) (by right; omega)
  have hA : (440 - 8 * r) >>> 3 = 55 - r := by omega
  have hB : ((8 * r) >>> 3 <<< 3) + (440 - 8 * r) = 440 := by omega
  rw [hA, hB, blakePadding_take (55 - r) (by omega) (by omega)] at h1
  have hC : 55 - r - 1 = 54 - r := by omega
  rw [hC] at h1
  have h2 := update_small_mk H s4 ((t0 + 2 ^ 32 - (440 - 8 * r)) % 2 ^ 32) t1
    (bufv ++ 0x80 :: List.replicate (54 - r) 0) 440 nt tr [pb] 8
    (by norm_num) (by norm_num) (by decide)
  have htk : [pb].take ((8:Nat) >>> 3) = [pb] := rfl
  have hbl : ((((440:Nat) >>> 3) <<< 3) + 8) = 448 := rfl
  rw [htk, hbl] at h2
  have h3 := update_fill_mk H s4
    (((((t0 + 2 ^ 32 - (440 - 8 * r)) % 2 ^ 32) + 2 ^ 32 - 8) % 2 ^ 32 + 2 ^ 32 - 64) % 2 ^ 32) t1
    ((bufv ++ 0x80 :: List.replicate (54 - r) 0) ++ [pb]) 448 nt tr
    (blake_msglen t0 t1 (8 * r)) 64 (by decide) (by decide)
  have htk2 : (blake_msglen t0 t1 (8 * r)).take (64 - (448:Nat) >>> 3) =
      blake_msglen t0 t1 (8 * r) :=
    List.take_of_length_le (by rw [blake_msglen_length]; decide)
  rw [htk2] at h3
  simp only [blake256_final_h, blake_msglen_fold]
  rw [if_neg (by omega : ¬ (8 * r : Nat) = 440), if_pos (by omega : (8 * r : Nat) < 440),
    if_neg (by omega : ¬ (8 * r : Nat) = 0)]
  rw [h1]
  simp only []
  rw [h2]
  simp only []
  rw [h3]
  simp [List.append_assoc]

/-- `blake256_final_h` with an empty buffer: full padding block
(`0x80`, 54 zeros, `pb`, length), with the zero-block flag set. -/
theorem blake256_final_trace_0 (H s4 : List Nat) (t0 t1 : Nat) (bufv : List Nat)
    (nt : Bool) (tr : List (List Nat)) (pa pb : Nat) :
    (blake256_final_h (Bstate.mk H s4 t0 t1 bufv 0 nt tr) pa pb).1.trace =
      tr ++ [bufv ++ 0x80 :: (List.replicate 54 0 ++ pb :: blake_msglen t0 t1 0)] := by
  have h1 := update_small_mk H s4 ((t0 + 2 ^ 32 - 440) % 2 ^ 32) t1 bufv 0 true tr
    blakePadding 440 (by norm_num) (by norm_num) (by decide)
  have hA : ((440:Nat)) >>> 3 = 55 := rfl
  have hB : (((0:Nat) >>> 3) <<< 3) + 440 = 440 := rfl
  rw [hA, hB, blakePadding_take 55 (by norm_num) (by norm_num)] at h1
  have hC : (55:Nat) - 1 = 54 := rfl
  rw [hC] at h1
  have h2 := update_small_mk H s4 ((t0 + 2 ^ 32 - 440) % 2 ^ 32) t1
    (bufv ++ 0x80 :: List.replicate 54 0) 440 true tr [pb] 8
    (by norm_num) (by norm_num) (by decide)
  have htk : [pb].take ((8:Nat) >>> 3) = [pb] := rfl
  have hbl : ((((440:Nat) >>> 3) <<< 3) + 8) = 448 := rfl
  rw [htk, hbl] at h2
  have h3 := update_fill_mk H s4
    (((((t0 + 2 ^ 32 - 440) % 2 ^ 32) + 2 ^ 32 - 8) % 2 ^ 32 + 2 ^ 32 - 64) % 2 ^ 32) t1
    ((bufv ++ 0x80 :: List.replicate 54 0) ++ [pb]) 448 true tr
    (blake_msglen t0 t1 0) 64 (by decide) (by decide)
  have htk2 : (blake_msglen t0 t1 0).take (64 - (448:Nat) >>> 3) = blake_msglen t0 t1 0 :=
    List.take_of_length_le (by rw [blake_msglen_length]; decide)
  rw [htk2] at h3
  simp only [blake256_final_h, blake_msglen_fold, reduceIte]
  rw [if_neg (by decide : ¬ (0:Nat) = 440), if_pos (by decide : (0:Nat) < 440)]
  rw [h1]
  rw [h2]
  simp only []
  rw [h3]
  simp [List.append_assoc]

/-- `blake256_final_h` when more than 440 bits are buffered: the `0x80`
and zeros fill the current block (first compression), then a zero block
carrying `pb` and the length (second compression). -/
theorem blake256_final_trace_gt (H s4 : List Nat) (t0 t1 : Nat) (bufv : List Nat)
    (nt : Bool) (tr : List (List Nat)) (pa pb : Nat) (r : Nat) (hr56 : 56 ≤ r) (hr : r ≤ 63) :
    (blake256_final_h (Bstate.mk H s4 t0 t1 bufv (8 * r) nt tr) pa pb).1.trace =
      tr ++ [bufv ++ 0x80 :: List.replicate (63 - r) 0,
        List.replicate 55 0 ++ pb :: blake_msglen t0 t1 (8 * r)] := by
  have h1 := update_fill_mk H s4 ((t0 + 2 ^ 32 - (512 - 8 * r)) % 2 ^ 32) t1 bufv (8 * r) nt tr
    blakePadding (512 - 8 * r) (by omega) (by omega)
  have hA : 64 - (8 * r) >>> 3 = 64 - r := by omega
  rw [hA, blakePadding_take (64 - r) (by omega) (by omega)] at h1
  have hC : 64 - r - 1 = 63 - r := by omega
  rw [hC] at h1
  simp only [blake256_final_h, blake_msglen_fold]
  rw [if_neg (by omega : ¬ (8 * r : Nat) = 440), if_neg (by omega : ¬ (8 * r : Nat) < 440)]
  rw [h1]
  simp only []
  set T0B := ((t0 + 2 ^ 32 - (512 - 8 * r)) % 2 ^ 32 + 512) % 2 ^ 32 with hT0B
  set T1B := if T0B = 0 then (t1 + 1) % 2 ^ 32 else t1 with hT1B
  set H2 := blake256_compress H s4 T0B T1B nt (bufv ++ 0x80 :: List.replicate (63 - r) 0)
    with hH2
  set TRA := tr ++ [bufv ++ 0x80 :: List.replicate (63 - r) 0] with hTRA
  have h2 := update_small_mk H2 s4 ((T0B + 2 ^ 32 - 440) % 2 ^ 32) T1B [] 0 nt TRA
    (blakePadding.drop 1) 440 (by norm_num) (by norm_num) (by decide)
  have hD : (blakePadding.drop 1).take ((440:Nat) >>> 3) = List.replicate 55 0 := by decide
  have hE : (((0:Nat) >>> 3) <<< 3) + 440 = 440 := rfl
  rw [hD, hE] at h2
  simp only [List.nil_append] at h2
  rw [h2]
  simp only []
  have h3 := update_small_mk H2 s4 ((T0B + 2 ^ 32 - 440) % 2 ^ 32) T1B
    (List.replicate 55 0) 440 true TRA [pb] 8 (by norm_num) (by norm_num) (by decide)
  have htk : [pb].take ((8:Nat) >>> 3) = [pb] := rfl
  have hbl : ((((440:Nat) >>> 3) <<< 3) + 8) = 448 := rfl
  rw [htk, hbl] at h3
  rw [h3]
  simp only []
  have h4 := update_fill_mk H2 s4
    (((((T0B + 2 ^ 32 - 440) % 2 ^ 32) + 2 ^ 32 - 8) % 2 ^ 32 + 2 ^ 32 - 64) % 2 ^ 32) T1B
    (List.replicate 55 0 ++ [pb]) 448 true TRA (blake_msglen t0 t1 (8 * r)) 64
    (by decide) (by decide)
  have htk2 : (blake_msglen t0 t1 (8 * r)).take (64 - (448:Nat) >>> 3) =
      blake_msglen t0 t1 (8 * r) :=
    List.take_of_length_le (by rw [blake_msglen_length]; decide)
  rw [htk2] at h4
  rw [h4]
  simp [hTRA, List.append_assoc]

/-- The state after `blake256_update` of the whole message from the
initial state, in explicit form (the evolving hash words stay
abstract). -/
theorem blake256_main_update_char (msg : List Nat) (hlen : 8 * msg.length < 2 ^ 64) :
    blake256_update blake256_init msg (8 * msg.length) =
      Bstate.mk (blake256_update_loop blake256_init msg (8 * msg.length)).1.h
        [0, 0, 0, 0] (512 * (msg.length / 64) % 2 ^ 32) (512 * (msg.length / 64) / 2 ^ 32)
        (msg.drop (64 * (msg.length / 64))) (8 * (msg.length % 64)) false
        (chunksOf64 msg (msg.length / 64)) := by
  have hfresh := blake256_update_fresh blake256_init msg (8 * msg.length) rfl rfl
  have hspec := blake256_update_loop_spec blake256_init msg (8 * msg.length)
  have ht := blake256_update_loop_t blake256_init msg (8 * msg.length) 0 rfl rfl (by omega)
  have hq8 : (8 * msg.length) / 512 = msg.length / 64 := by omega
  have hr8 : (8 * msg.length) % 512 = 8 * (msg.length % 64) := by omega
  rw [hfresh]
  simp only []
  rw [hspec.2.1, hspec.2.2.2.1, hspec.2.2.2.2.1, hspec.1, ht.1, ht.2]
  rw [hq8, hr8]
  have hbuf : (msg.drop (64 * (msg.length / 64))).take ((8 * (msg.length % 64)) >>> 3) =
      msg.drop (64 * (msg.length / 64)) := by
    apply List.take_of_length_le
    rw [List.length_drop]
    omega
  simp [blake256_init, hbuf]

/-- The 8 length bytes appended by `blake256_final_h` equal the 64-bit
big-endian total message bit length (high u32 then low u32). -/
theorem blake_msglen_value (n : Nat) (hlen : 8 * n < 2 ^ 64) :
    blake_msglen (512 * (n / 64) % 2 ^ 32) (512 * (n / 64) / 2 ^ 32) (8 * (n % 64)) =
      uint32_to_bytes_be (8 * n / 2 ^ 32) ++ uint32_to_bytes_be (8 * n % 2 ^ 32) := by
  have h32 : (2:Nat) ^ 32 = 4294967296 := by norm_num
  have h64 : (2:Nat) ^ 64 = 18446744073709551616 := by norm_num
  unfold blake_msglen
  congr 1
  · congr 1
    rw [h32] at *
    rw [h64] at hlen
    by_cases hlt : (512 * (n / 64) % 4294967296 + 8 * (n % 64)) % 4294967296 < 8 * (n % 64)
    · rw [if_pos hlt]
      omega
    · rw [if_neg hlt]
      omega
  · congr 1
    rw [h32] at *
    omega

/-- C9: for every input message (whose bit length fits the `uint64_t`
length argument), the byte stream compressed by `blake256_hash` is
exactly the message followed by the reference padding: the single
terminator `0x81` when the buffered length is exactly 440 bits,
otherwise `0x80`, zeros and the terminator `0x01`; followed in both
cases by the total message bit-length in 64-bit big-endian (high u32
then low u32) — and every compressed block is exactly 64 bytes. -/
theorem blake256_padding_matches_spec (msg : List Nat) (hlen : 8 * msg.length < 2 ^ 64) :
    (blake256_hash msg).2.flatten = msg ++ blake_pad_spec msg.length ∧
    ∀ blk ∈ (blake256_hash msg).2, blk.length = 64 := by
  have hdl : (8 * msg.length) % 2 ^ 64 = 8 * msg.length := Nat.mod_eq_of_lt hlen
  have hchar := blake256_main_update_char msg hlen
  have hqn : 64 * (msg.length / 64) ≤ msg.length := by omega
  have hflat := chunksOf64_flatten (msg.length / 64) msg (by omega)
  have hmem := chunksOf64_mem_length (msg.length / 64) msg (by omega)
  have hbuflen : (msg.drop (64 * (msg.length / 64))).length = msg.length % 64 := by
    rw [List.length_drop]
    omega
  have hmlv := blake_msglen_value msg.length hlen
  have hml8 : (blake_msglen (512 * (msg.length / 64) % 2 ^ 32)
      (512 * (msg.length / 64) / 2 ^ 32) (8 * (msg.length % 64))).length = 8 :=
    blake_msglen_length _ _ _
  have hpadlen : 8 * msg.length / 2 ^ 32 % 2 ^ 32 = 8 * msg.length / 2 ^ 32 := by
    have h32 : (2:Nat) ^ 32 = 4294967296 := by norm_num
    have h64 : (2:Nat) ^ 64 = 18446744073709551616 := by norm_num
    rw [h32, h64] at *
    omega
  simp only [blake256_hash, blake256_final, hdl, hchar]
  by_cases h55 : msg.length % 64 = 55
  · have hb : 8 * (msg.length % 64) = 440 := by omega
    rw [hb, blake256_final_trace_440]
    constructor
    · simp only [List.flatten_append, List.flatten_cons, List.flatten_nil, List.append_nil, hflat]
      rw [blake_pad_spec]
      have hmod : 8 * msg.length % 512 = 440 := by omega
      rw [if_pos hmod]
      rw [← hb, hmlv, hpadlen]
      simp [List.append_assoc, List.take_append_drop]
      rw [← List.append_assoc, List.take_append_drop]
    · intro blk hblk
      rw [List.mem_append] at hblk
      rcases hblk with h | h
      · exact hmem blk h
      · rw [List.mem_singleton] at h
        subst h
        simp only [List.length_append, List.length_cons, hbuflen, ← hb, hml8]
        omega
  · by_cases hlt : msg.length % 64 < 55
    · by_cases h0 : msg.length % 64 = 0
      · rw [h0]
        have hb : 8 * (0:Nat) = 0 := rfl
        rw [hb, blake256_final_trace_0]
        constructor
        · simp only [List.flatten_append, List.flatten_cons, List.flatten_nil, List.append_nil, hflat]
          rw [blake_pad_spec]
          have hmod : ¬ 8 * msg.length % 512 = 440 := by omega
          rw [if_neg hmod]
          have hz : (952 - (8 * msg.length % 512 + 8)) % 512 / 8 = 54 := by omega
          rw [hz]
          have hdrop : List.drop (64 * (msg.length / 64)) msg = [] := by
            apply List.drop_eq_nil_of_le
            omega
          rw [hdrop] at *
          have hmlv0 : blake_msglen (512 * (msg.length / 64) % 2 ^ 32)
              (512 * (msg.length / 64) / 2 ^ 32) 0 =
              uint32_to_bytes_be (8 * msg.length / 2 ^ 32) ++
                uint32_to_bytes_be (8 * msg.length % 2 ^ 32) := by
            rw [← hmlv, h0]
          rw [hmlv0, hpadlen]
          have htk : List.take (64 * (msg.length / 64)) msg = msg := by
            apply List.take_of_length_le
            omega
          simp [htk]
        · intro blk hblk
          rw [List.mem_append] at hblk
          rcases hblk with h | h
          · exact hmem blk h
          · rw [List.mem_singleton] at h
            subst h
            have hdrop : List.drop (64 * (msg.length / 64)) msg = [] := by
              apply List.drop_eq_nil_of_le
              omega
            simp [hdrop, blake_msglen_length]
      · rw [blake256_final_trace_lt _ _ _ _ _ _ _ _ _ (msg.length % 64) (by omega) hlt]
        constructor
        · simp only [List.flatten_append, List.flatten_cons, List.flatten_nil, List.append_nil, hflat]
          rw [blake_pad_spec]
          have hmod : ¬ 8 * msg.length % 512 = 440 := by omega
          rw [if_neg hmod]
          have hz : (952 - (8 * msg.length % 512 + 8)) % 512 / 8 = 54 - msg.length % 64 := by
            omega
          rw [hz, hmlv, hpadlen]
          rw [← List.append_assoc, List.take_append_drop]
        · intro blk hblk
          rw [List.mem_append] at hblk
          rcases hblk with h | h
          · exact hmem blk h
          · rw [List.mem_singleton] at h
            subst h
            simp only [List.length_append, List.length_cons, List.length_replicate, hbuflen,
              hml8]
            omega
    · have hgt : 56 ≤ msg.length % 64 := by omega
      rw [blake256_final_trace_gt _ _ _ _ _ _ _ _ _ (msg.length % 64) hgt (by omega)]
      constructor
      · simp only [List.flatten_append, List.flatten_cons, List.flatten_nil, List.append_nil, hflat]
        rw [blake_pad_spec]
        have hmod : ¬ 8 * msg.length % 512 = 440 := by omega
        rw [if_neg hmod]
        have hz : (952 - (8 * msg.length % 512 + 8)) % 512 / 8 = 118 - msg.length % 64 := by
          omega
        rw [hz, hmlv, hpadlen]
        have hrep : List.replicate (63 - msg.length % 64) (0:Nat) ++ List.replicate 55 0 =
            List.replicate (118 - msg.length % 64) 0 := by
          rw [← List.replicate_add]
          congr 1
          omega
        simp only [List.append_assoc, List.cons_append, List.nil_append]
        rw [← List.append_assoc (List.replicate (63 - msg.length % 64) 0), hrep]
        rw [← List.append_assoc, List.take_append_drop]
      · intro blk hblk
        rw [List.mem_append] at hblk
        rcases hblk with h | h
        · exact hmem blk h
        · rw [List.mem_cons, List.mem_singleton] at h
          rcases h with h | h
          · subst h
            simp only [List.length_append, List.length_cons, List.length_replicate, hbuflen]
            omega
          · subst h
            simp only [List.length_append, List.length_cons, List.length_replicate, hml8]

/-- Witness for `blake256_padding_matches_spec` at the empty message. -/
theorem blake256_padding_matches_spec_witness :
    8 * ([] : List Nat).length < 2 ^ 64 ∧
    ((blake256_hash ([] : List Nat)).2.flatten =
        ([] : List Nat) ++ blake_pad_spec ([] : List Nat).length ∧
      ∀ blk ∈ (blake256_hash ([] : List Nat)).2, blk.length = 64) :=
  ⟨by decide, blake256_padding_matches_spec [] (by decide)⟩
